import Mathlib

/-!
Shallow embedding of the tag-farm ingestion pipeline (src/embed.py) and of the
query path (src/app.py), with theorems checking the specification claims.

Texts are modelled as lists of characters (Python strings are sequences of
code points, exactly as Lean lists of Char).  Regular-expression constructs of
the source are translated into explicit scanners with the same backtracking
semantics, documented at each definition.
-/

namespace TagFarm

/-! ## Character classes -/

/-- Python whitespace for str (used by both the regex class for spaces and
by str.strip): ASCII space, \t \n \v \f \r, the separator controls 0x1c-0x1f,
0x85, NBSP and the Unicode space separators. -/
def isPySpace (c : Char) : Bool :=
  let n := c.toNat
  n == 32 || (9 ≤ n && n ≤ 13) || (28 ≤ n && n ≤ 31) || n == 0x85 || n == 0xa0 ||
  n == 0x1680 || (0x2000 ≤ n && n ≤ 0x200a) || n == 0x2028 || n == 0x2029 ||
  n == 0x202f || n == 0x205f || n == 0x3000

/-- Korean syllable block, the regex class 가-힣 of embed.py. -/
def isHangulSyl (c : Char) : Bool :=
  0xAC00 ≤ c.toNat && c.toNat ≤ 0xD7A3

/-- ASCII digit, the regex class \d as used by the date pattern. -/
def isAsciiDigit (c : Char) : Bool :=
  48 ≤ c.toNat && c.toNat ≤ 57

/-! ## Generic list helpers (Python substring and split primitives) -/

/-- Whether pat occurs at the very start of cs. -/
def leadsWith : List Char → List Char → Bool
  | [], _ => true
  | _ :: _, [] => false
  | p :: ps, c :: cs => p == c && leadsWith ps cs

/-- Python substring membership, pat in cs. -/
def hasSubstr (pat : List Char) : List Char → Bool
  | [] => leadsWith pat []
  | c :: rest => leadsWith pat (c :: rest) || hasSubstr pat rest

/-- Python split on a newline character: s.split of embed.py line 124. -/
def splitNl : List Char → List (List Char)
  | [] => [[]]
  | c :: rest =>
    if c = '\n' then [] :: splitNl rest
    else
      match splitNl rest with
      | [] => [[c]]
      | g :: gs => (c :: g) :: gs

/-- Python str.strip: drop leading and trailing whitespace. -/
def pyStrip (cs : List Char) : List Char :=
  ((cs.dropWhile isPySpace).reverse.dropWhile isPySpace).reverse

/-! ## Tag dictionaries (TAG_SETS of embed.py) -/

def CROP_TAGS : List String :=
  ["벼", "보리", "밀", "콩", "옥수수", "감자", "고구마", "고추", "배추", "무",
   "마늘", "양파", "오이", "토마토", "딸기", "수박", "복숭아", "사과", "배",
   "포도", "감", "인삼", "오미자", "깨", "소", "돼지", "닭", "꿀벌"]

def TASK_TAGS : List String :=
  ["파종", "육묘", "정식", "이앙", "물관리", "비료", "제초", "전정", "적과",
   "방제", "수확", "건조", "저장", "종자신청", "방역", "농기계점검", "요약"]

def ENV_TAGS : List String :=
  ["기상전망", "태풍", "장마", "가뭄", "폭염", "동해", "냉해", "집중호우",
   "일조량", "저수율", "시설하우스", "화재예방", "월동관리"]

def PEST_TAGS : List String :=
  ["탄저병", "도열병", "흰가루병", "과수화상병", "진딧물", "응애", "총채벌레",
   "멸구", "구제역", "AI", "ASF"]

def ADMIN_TAGS : List String :=
  ["PLS", "비료", "보급종", "재해보험", "시범사업", "농약"]

/-- The optional particle suffix group of the single-character pattern:
(?:은|는|이|가|을|를|의|와|과|도|로|에|서)? -/
def PARTICLES : List Char :=
  ['은', '는', '이', '가', '을', '를', '의', '와', '과', '도', '로', '에', '서']

/-! ## Compilation of a category dictionary

embed.py partitions each category list into single-character and
multi-character keywords and builds the alternation
(?<![가-힣])((?:one|...)) particles? (?![가-힣]) | ((?:multi|...)).
re.escape only quotes regex metacharacters, so it is the identity on the
literal matching semantics modelled here. -/

/-- Keywords of length exactly one, as characters, in dictionary order. -/
def compileOnes (tags : List String) : List Char :=
  tags.filterMap fun t =>
    match t.data with
    | [c] => some c
    | _ => none

/-- Keywords of length at least two, as character lists, in dictionary order. -/
def compileMultis (tags : List String) : List (List Char) :=
  tags.filterMap fun t => if 1 < t.data.length then some t.data else none

def prevIsHangul : Option Char → Bool
  | none => false
  | some p => isHangulSyl p

/-- The single-character branch of the compiled pattern, attempted at a
position whose current character is c, remaining input rest, preceding
character prev.  Mirrors the regex backtracking:
the lookbehind requires prev not to be a Korean syllable; the optional
particle group is greedy, and if the lookahead (?![가-힣]) fails after the
particle the engine retries with the empty particle.  On success returns the
group value (the bare keyword) and how many characters of rest were consumed
(0 without particle, 1 with). -/
def matchSingleC (ones : List Char) (prev : Option Char) (c : Char)
    (rest : List Char) : Option (String × Nat) :=
  if prevIsHangul prev then none
  else if c ∈ ones then
    match rest with
    | [] => some (String.mk [c], 0)
    | d :: rest2 =>
      if d ∈ PARTICLES then
        match rest2 with
        | [] => some (String.mk [c], 1)
        | e :: _ =>
          if isHangulSyl e then
            -- backtrack to the empty particle; the lookahead then sees d
            if isHangulSyl d then none else some (String.mk [c], 0)
          else some (String.mk [c], 1)
      else if isHangulSyl d then none else some (String.mk [c], 0)
  else none

/-- The multi-character branch: the first alternative (in dictionary order)
that occurs literally at the current position.  Empty alternatives cannot
arise (the compiler keeps only keywords of length at least two) and are
skipped.  Returns the group value and the characters consumed from rest. -/
def matchMultiC : List (List Char) → Char → List Char → Option (String × Nat)
  | [], _, _ => none
  | [] :: ms, c, rest => matchMultiC ms c rest
  | (mc :: mrest) :: ms, c, rest =>
    if mc = c && leadsWith mrest rest then some (String.mk (mc :: mrest), mrest.length)
    else matchMultiC ms c rest

/-- One attempt of the whole alternation at a position: the single-character
branch is listed first in the compiled pattern, the multi-character branch
second. -/
def matchAt (ones : List Char) (multis : List (List Char)) (prev : Option Char)
    (c : Char) (rest : List Char) : Option (String × Nat) :=
  match matchSingleC ones prev c rest with
  | some r => some r
  | none => matchMultiC multis c rest

/-- re.findall: scan left to right, collecting non-overlapping matches and
resuming after each match.  skip counts characters still inside the previous
match; prev is the character immediately before the current position (for the
lookbehind). -/
def scanAux (ones : List Char) (multis : List (List Char)) :
    Option Char → Nat → List Char → List String
  | _, _, [] => []
  | _, skip + 1, c :: rest => scanAux ones multis (some c) skip rest
  | prev, 0, c :: rest =>
    match matchAt ones multis prev c rest with
    | some (tag, extra) => tag :: scanAux ones multis (some c) extra rest
    | none => scanAux ones multis (some c) 0 rest

/-! ## Deduplication and sorting (sorted(list({...})) of embed.py) -/

/-- Insert into a strictly sorted list, keeping it strictly sorted and
ignoring duplicates. -/
def insortND (x : String) : List String → List String
  | [] => [x]
  | y :: ys =>
    if x = y then y :: ys
    else if x < y then x :: y :: ys
    else y :: insortND x ys

/-- The strictly increasing enumeration of the set of elements of l:
exactly Python sorted(list(set(l))) under the code-point order on strings. -/
def sortDedup (l : List String) : List String := l.foldr insortND []

/-- The first character of a string as a string (empty for the empty
string): what next(filter(None, m), two-quotes) computes when m is itself a
string, since iterating a Python string yields its characters and every
one-character string is truthy. -/
def firstCharStr (s : String) : String :=
  match s.data with
  | [] => ""
  | c :: _ => String.mk [c]

/-- extract_smart_tags_optimized for one category.  A None pattern (empty
dictionary) yields the empty list.  When the compiled pattern has both the
single-character and the multi-character branch it has two capturing groups,
re.findall returns tuples, and the cleanup keeps the nonempty group: the full
keyword.  When only one branch exists the pattern has a single group,
re.findall returns plain strings, and the cleanup iterates each match string
itself, keeping only its first character. -/
def extractCategory (tags : List String) (text : List Char) : List String :=
  let ones := compileOnes tags
  let multis := compileMultis tags
  if ones.isEmpty && multis.isEmpty then []
  else if ones.isEmpty || multis.isEmpty then
    sortDedup ((scanAux ones multis none 0 text).map firstCharStr)
  else sortDedup (scanAux ones multis none 0 text)

/-- The five category result sets of extract_smart_tags_optimized. -/
structure Tags where
  crop : List String
  task : List String
  env : List String
  pest : List String
  admin : List String
deriving DecidableEq, Repr

/-- extract_smart_tags_optimized over the process-wide TAG_SETS dictionary. -/
def extractTags (text : List Char) : Tags :=
  { crop := extractCategory CROP_TAGS text
    task := extractCategory TASK_TAGS text
    env := extractCategory ENV_TAGS text
    pest := extractCategory PEST_TAGS text
    admin := extractCategory ADMIN_TAGS text }

/-! ## clean_markdown (embed.py lines 74-79)

The first substitution removes markdown links: the lazy pattern finds, from a
left bracket, the earliest following "](", then the earliest following right
parenthesis, dot never crossing a newline; the whole span is replaced by one
space.  The next substitutions replace table and markup characters by spaces,
collapse whitespace runs and strip the ends. -/

/-- Characters consumed from after the left bracket through "](", or none if
no such continuation exists before a newline. -/
def midLen : List Char → Option Nat
  | [] => none
  | ']' :: '(' :: _ => some 2
  | c :: rest => if c = '\n' then none else (midLen rest).map (· + 1)

/-- Characters consumed from after "](" through the closing parenthesis. -/
def closeLen : List Char → Option Nat
  | [] => none
  | ')' :: _ => some 1
  | c :: rest => if c = '\n' then none else (closeLen rest).map (· + 1)

/-- Total length of a link match starting at this position, if any. -/
def linkLen : List Char → Option Nat
  | '[' :: rest =>
    match midLen rest with
    | none => none
    | some m =>
      match closeLen (rest.drop m) with
      | none => none
      | some k => some (1 + m + k)
  | _ => none

/-- re.sub of the link pattern with a single space: scan left to right,
non-overlapping, resuming after each replacement.  skip counts characters
still inside the span being replaced. -/
def stripLinkAux : Nat → List Char → List Char
  | _, [] => []
  | skip + 1, _ :: rest => stripLinkAux skip rest
  | 0, c :: rest =>
    match linkLen (c :: rest) with
    | some (n + 1) => ' ' :: stripLinkAux n rest
    | _ => c :: stripLinkAux 0 rest

def stripLink (cs : List Char) : List Char := stripLinkAux 0 cs

/-- Table characters pipe and hyphen become spaces. -/
def subPipeDash (cs : List Char) : List Char :=
  cs.map fun c => if c = '|' || c = '-' then ' ' else c

/-- Markup characters (hash, asterisk, backquote U+0060, greater-than)
become spaces. -/
def subMarkup (cs : List Char) : List Char :=
  cs.map fun c => if c = '#' || c = '*' || c.toNat == 96 || c = '>' then ' ' else c

/-- Collapse every whitespace run to a single space; the flag records whether
the previous character already belonged to a run. -/
def collapseWsAux : Bool → List Char → List Char
  | _, [] => []
  | inRun, c :: rest =>
    if isPySpace c then
      if inRun then collapseWsAux true rest
      else ' ' :: collapseWsAux true rest
    else c :: collapseWsAux false rest

def collapseWs (cs : List Char) : List Char := collapseWsAux false cs

def clean_markdown_l (cs : List Char) : List Char :=
  pyStrip (collapseWs (subMarkup (subPipeDash (stripLink cs))))

def clean_markdown (s : String) : String := String.mk (clean_markdown_l s.data)

/-! ## Document segmentation (embed.py lines 113-133) -/

def MAX_TEXT_LENGTH : Nat := 1536
def BATCH_SIZE : Nat := 1
def DB_INSERT_BATCH : Nat := 50

/-- The split delimiter of re.split: a newline, a hash, then greedy
whitespace whose backtracking succeeds exactly when the first
non-whitespace character afterwards is a left bracket (the lookahead keeps
the bracket).  Returns the number of characters the delimiter consumes. -/
def secDelimLen : List Char → Option Nat
  | '\n' :: '#' :: rest =>
    match (rest.dropWhile isPySpace).head? with
    | some '[' => some (2 + (rest.takeWhile isPySpace).length)
    | _ => none
  | _ => none

/-- re.split on the section delimiter: pieces between non-overlapping
leftmost matches, the delimiter itself discarded.  cur accumulates the
current piece in reverse; skip counts characters still inside a matched
delimiter (a delimiter always has at least one more character after the
current one, namely the whitespace run and the bracket that follows). -/
def splitSecAux : Nat → List Char → List Char → List (List Char)
  | _, cur, [] => [cur.reverse]
  | skip + 1, cur, _ :: rest => splitSecAux skip cur rest
  | 0, cur, c :: rest =>
    match secDelimLen (c :: rest) with
    | some n => cur.reverse :: splitSecAux (n - 1) [] rest
    | none => splitSecAux 0 (c :: cur) rest

def splitSections (doc : List Char) : List (List Char) := splitSecAux 0 [] doc

/-- The bracketed date token at this position: a left bracket, four digits, a
hyphen, two digits, as in the pattern of embed.py line 131. -/
def dateAt : List Char → Option (Nat × Nat)
  | '[' :: a :: b :: c :: d :: '-' :: e :: f :: _ =>
    if isAsciiDigit a && isAsciiDigit b && isAsciiDigit c && isAsciiDigit d &&
       isAsciiDigit e && isAsciiDigit f then
      some (1000 * (a.toNat - 48) + 100 * (b.toNat - 48) + 10 * (c.toNat - 48) +
              (d.toNat - 48),
            10 * (e.toNat - 48) + (f.toNat - 48))
    else none
  | _ => none

/-- re.search of the date pattern: the leftmost position where it matches. -/
def findDate : List Char → Option (Nat × Nat)
  | [] => none
  | c :: rest =>
    match dateAt (c :: rest) with
    | some r => some r
    | none => findDate rest

/-- The table-of-contents marker of embed.py line 129. -/
def TOC_MARKER : List Char := "목 차".data

/-- The text window on which tags are extracted (embed.py line 138): the
header plus the first thousand characters of the body. -/
def searchRange (header body : List Char) : List Char :=
  header ++ ' ' :: body.take 1000

/-- The embedding input (embed.py line 136): cleaned header, ". ", cleaned
body, hard-truncated to MAX_TEXT_LENGTH characters. -/
def mkFullText (header body : List Char) : String :=
  String.mk ((clean_markdown_l header ++ '.' :: ' ' :: clean_markdown_l body).take
    MAX_TEXT_LENGTH)

/-- The metadata of one record candidate (the batch_meta entry). -/
structure Meta where
  year : Nat
  month : Nat
  title : String
  tags : Tags
  content : String
deriving DecidableEq, Repr

/-- The per-section part of the loop body of build_database (lines 122-145):
skip blank sections, split off the header line, impute a leading hash,
skip table-of-contents headers and headers without a date token, and
otherwise produce the record metadata and the embedding input. -/
def sectionData (sec : List Char) : Option (Meta × String) :=
  let stripped := pyStrip sec
  if stripped.isEmpty then none
  else
    let lines := splitNl stripped
    let h0 := lines.headD []
    let header := if h0.head? = some '#' then h0 else '#' :: ' ' :: h0
    let body := List.intercalate ['\n'] lines.tail
    if hasSubstr TOC_MARKER header then none
    else
      match findDate header with
      | none => none
      | some (y, m) =>
        some ({ year := y, month := m, title := String.mk header,
                tags := extractTags (searchRange header body),
                content := String.mk body },
              mkFullText header body)

/-! ## Storage model (init_db and flush_buffer_to_db of embed.py)

The store is the DuckDB file: at most one farm_info table (its embedding
column has a fixed width set at creation), an id sequence, and the rows.
Vector components are an abstract type since no claim depends on
floating-point arithmetic. -/

/-- One buffered record, the tuple appended to buffer_rows. -/
structure BufRow (α : Type) where
  year : Nat
  month : Nat
  title : String
  tags_crop : List String
  tags_task : List String
  tags_env : List String
  tags_pest : List String
  tags_admin : List String
  content_md : String
  embedding : List α
deriving DecidableEq, Repr

/-- A persisted row: a buffered record plus the id drawn from the sequence. -/
structure Row (α : Type) where
  id : Nat
  data : BufRow α
deriving DecidableEq, Repr

/-- The store: dim is the width of the embedding column of the farm_info
table if the table exists, nextId the state of seq_id, rows the table
contents in insertion order. -/
structure DB (α : Type) where
  dim : Option Nat
  nextId : Nat
  rows : List (Row α)
deriving DecidableEq, Repr

/-- A fresh database file. -/
def emptyDB {α : Type} : DB α := { dim := none, nextId := 1, rows := [] }

/-- init_db (embed.py lines 44-60): CREATE SEQUENCE IF NOT EXISTS and CREATE
TABLE IF NOT EXISTS.  On an existing store both statements do nothing, no
matter what dimension is passed: DuckDB raises no error for an IF NOT EXISTS
creation whose declaration differs from the existing table.  There is no
failure path for the schema statements. -/
def init_db {α : Type} (db : DB α) (embedding_dim : Nat) : DB α :=
  match db.dim with
  | none => { db with dim := some embedding_dim }
  | some _ => db

/-- Insert buffered rows one at a time (executemany): each row must convert
to the fixed-width embedding column, so a row whose vector length differs
from the column width raises; rows before it are already inserted and the
remainder is not attempted.  Returns inserted rows, the new sequence state
and whether an error was raised. -/
def insertLoop {α : Type} (dim : Nat) :
    Nat → List (BufRow α) → List (Row α) × Nat × Bool
  | nextId, [] => ([], nextId, false)
  | nextId, b :: bs =>
    if b.embedding.length = dim then
      let r := insertLoop dim (nextId + 1) bs
      ({ id := nextId, data := b } :: r.1, r.2.1, r.2.2)
    else ([], nextId, true)

/-- flush_buffer_to_db (embed.py lines 81-89): empty buffers return at once;
otherwise the insert runs and any duckdb.Error is caught and logged — the
function always returns to its caller, the Bool recording whether an error
was logged. -/
def flush_buffer_to_db {α : Type} (db : DB α) (buffer : List (BufRow α)) :
    DB α × Bool :=
  if buffer.isEmpty then (db, false)
  else
    match db.dim with
    | none => (db, true)
    | some d =>
      let r := insertLoop d db.nextId buffer
      ({ db with rows := db.rows ++ r.1, nextId := r.2.1 }, r.2.2)

/-! ## The ingestion pipeline (build_database of embed.py)

The embedding backend is the external collaborator: an oracle mapping the
index of the encode call and the batch of texts either to one vector per
text or to a failure (the exception raised by encode). -/

def Enc (α : Type) : Type := Nat → List String → Option (List (List α))

/-- Make a buffered row from metadata and an embedding vector (the tuple of
embed.py lines 152-157). -/
def mkBufRow {α : Type} (m : Meta) (emb : List α) : BufRow α :=
  { year := m.year, month := m.month, title := m.title,
    tags_crop := m.tags.crop, tags_task := m.tags.task, tags_env := m.tags.env,
    tags_pest := m.tags.pest, tags_admin := m.tags.admin,
    content_md := m.content, embedding := emb }

/-- The loop state of build_database: the open store, the rows waiting for a
flush, the current encode batch, the number of encode calls made so far and,
as observable instrumentation of the backend, every batch of texts sent to
it. -/
structure PipeState (α : Type) where
  db : DB α
  buffer : List (BufRow α)
  batchTexts : List String
  batchMeta : List Meta
  calls : Nat
  sent : List (List String)
deriving Repr

/-- One iteration of the section loop (embed.py lines 121-169): skips and
parsing via sectionData; append to the batch; once the batch reaches
BATCH_SIZE, encode it — on success pair metadata with vectors into the
buffer, on failure log and drop the batch, always clearing the batch
afterwards; flush the buffer once it reaches DB_INSERT_BATCH. -/
def step {α : Type} (enc : Enc α) (st : PipeState α) (sec : List Char) :
    PipeState α :=
  match sectionData sec with
  | none => st
  | some (meta, fullText) =>
    let batchTexts := st.batchTexts ++ [fullText]
    let batchMeta := st.batchMeta ++ [meta]
    let st1 : PipeState α :=
      if BATCH_SIZE ≤ batchTexts.length then
        match enc st.calls batchTexts with
        | some embs =>
          { st with buffer := st.buffer ++ List.zipWith mkBufRow batchMeta embs,
                    batchTexts := [], batchMeta := [],
                    calls := st.calls + 1, sent := st.sent ++ [batchTexts] }
        | none =>
          { st with batchTexts := [], batchMeta := [],
                    calls := st.calls + 1, sent := st.sent ++ [batchTexts] }
      else { st with batchTexts := batchTexts, batchMeta := batchMeta }
    if DB_INSERT_BATCH ≤ st1.buffer.length then
      { st1 with db := (flush_buffer_to_db st1.db st1.buffer).1, buffer := [] }
    else st1

/-- The state after the section loop, starting from a fresh store prepared by
init_db with the dimension reported by the backend. -/
def pipeStateOf {α : Type} (dim : Nat) (enc : Enc α) (doc : List Char) :
    PipeState α :=
  (splitSections doc).foldl (step enc)
    { db := init_db emptyDB dim, buffer := [], batchTexts := [],
      batchMeta := [], calls := 0, sent := [] }

/-- build_database (embed.py lines 91-191) after model loading: run the
section loop; if a remainder batch is left, encode it with no exception
handler, so a failure there propagates and aborts the run (the error case);
flush any remaining buffer; the index build and connection close do not
change the rows. -/
def buildDatabase {α : Type} (dim : Nat) (enc : Enc α) (doc : List Char) :
    Except Unit (DB α) :=
  let st := pipeStateOf dim enc doc
  match st.batchTexts with
  | [] =>
    if st.buffer.isEmpty then Except.ok st.db
    else Except.ok (flush_buffer_to_db st.db st.buffer).1
  | t :: ts =>
    match enc st.calls (t :: ts) with
    | none => Except.error ()
    | some embs =>
      let buffer := st.buffer ++ List.zipWith mkBufRow st.batchMeta embs
      if buffer.isEmpty then Except.ok st.db
      else Except.ok (flush_buffer_to_db st.db buffer).1

/-! ## Reference characterisation of the persisted rows -/

/-- The rows a list of buffered records becomes when inserted starting at a
given sequence value. -/
def rowsOfBuf {α : Type} (start : Nat) : List (BufRow α) → List (Row α)
  | [] => []
  | b :: bs => { id := start, data := b } :: rowsOfBuf (start + 1) bs

/-- The buffered records the run should produce: one encode call per parsed
section (BATCH_SIZE is one), a failed call contributing nothing and a
successful call pairing the metadata with the returned vectors. -/
def goodRows {α : Type} (enc : Enc α) : Nat → List (Meta × String) →
    List (BufRow α)
  | _, [] => []
  | k, (m, t) :: rest =>
    (match enc k [t] with
     | some embs => List.zipWith mkBufRow [m] embs
     | none => []) ++ goodRows enc (k + 1) rest

/-- The record candidates of a document, in order. -/
def parsedSections (doc : List Char) : List (Meta × String) :=
  (splitSections doc).filterMap sectionData

/-- All buffered records the run should persist. -/
def expectedRows {α : Type} (enc : Enc α) (doc : List Char) : List (BufRow α) :=
  goodRows enc 0 (parsedSections doc)

/-! ## The query path (src/app.py)

The similarity function is the storage collaborator
(array_cosine_similarity); it is a parameter of the ranking model. -/

/-- A stand-in scoring function used to instantiate concrete examples:
the dot product over the rationals. -/
def dotQ (x y : List ℚ) : ℚ := (List.zipWith (· * ·) x y).sum

/-- The SQL of app.py lines 65-70: ORDER BY score DESC LIMIT 5.  SQL fixes
only that the output is a five-element prefix of some reordering of the
table that is non-increasing in score; it imposes nothing else on the order
of rows with equal scores. -/
def rankRel (sim : List ℚ → List ℚ → ℚ) (qv : List ℚ) (rows : List (Row ℚ))
    (out : List (Row ℚ)) : Prop :=
  ∃ perm : List (Row ℚ), rows.Perm perm ∧
    perm.Pairwise (fun a b => sim b.data.embedding qv ≤ sim a.data.embedding qv) ∧
    out = perm.take 5

/-- What the claim asserts of an output: descending score with ties broken by
ascending id. -/
def tieBrokenById (sim : List ℚ → List ℚ → ℚ) (qv : List ℚ)
    (out : List (Row ℚ)) : Prop :=
  out.Pairwise fun a b =>
    sim b.data.embedding qv < sim a.data.embedding qv ∨
      (sim a.data.embedding qv = sim b.data.embedding qv ∧ a.id < b.id)

/-- The query widget flow of app.py lines 56-61: the empty string is falsy
and does nothing; a nonempty string shorter than two characters only warns;
otherwise the query is encoded once and searched.  The Nat counts calls to
the embedding backend. -/
inductive QueryOutcome where
  | idle
  | tooShort
  | searched
deriving DecidableEq, Repr

def queryFlow (q : String) : QueryOutcome × Nat :=
  if q.isEmpty then (QueryOutcome.idle, 0)
  else if q.length < 2 then (QueryOutcome.tooShort, 0)
  else (QueryOutcome.searched, 1)

/-! ## Concrete inputs used by example theorems -/

/-- A backend that always answers with a fixed four-dimensional vector. -/
def encConst4 : Enc ℚ := fun _ ts => some (ts.map fun _ => ([0, 0, 0, 0] : List ℚ))

/-- A backend that always answers with a fixed two-dimensional vector. -/
def encConst2 : Enc ℚ := fun _ ts => some (ts.map fun _ => ([0, 0] : List ℚ))

/-- A backend whose first encode call raises and whose later calls answer
with a fixed two-dimensional vector. -/
def encFail0 : Enc ℚ := fun i ts =>
  if i = 0 then none else some (ts.map fun _ => ([0, 0] : List ℚ))

/-- The end-to-end scenario document: a table-of-contents section and two
dated sections. -/
def docScenario : List Char :=
  ("# 목 차\n1. 벼\n# [2024-05-20] 벼 이앙 시기\n벼 이앙 준비\n" ++
   "# [2024-06-10] 고추 탄저병 방제\n고추 탄저병 예방").data

/-- A document whose only section header carries the out-of-range month
thirteen. -/
def docMonth13 : List Char := "# [2024-13] 검사\n본문".data

/-- A two-section document used with the failing backend. -/
def docTwo : List Char := "# [2024-01] 하나\n몸1\n# [2024-02] 둘\n몸2".data

/-- A buffered record whose embedding length is one, for dimension-mismatch
examples. -/
def shortBufRow : BufRow ℚ :=
  { year := 2024, month := 1, title := "t", tags_crop := [], tags_task := [],
    tags_env := [], tags_pest := [], tags_admin := [], content_md := "c",
    embedding := [0] }

/-- Two stored rows with the same embedding vector and distinct ids. -/
def rowA : Row ℚ :=
  { id := 1,
    data := { year := 2024, month := 5, title := "a", tags_crop := [],
              tags_task := [], tags_env := [], tags_pest := [],
              tags_admin := [], content_md := "", embedding := [1, 0] } }

def rowB : Row ℚ :=
  { id := 2,
    data := { year := 2024, month := 6, title := "b", tags_crop := [],
              tags_task := [], tags_env := [], tags_pest := [],
              tags_admin := [], content_md := "", embedding := [1, 0] } }

/-- A store holding the two tied rows, and a query vector. -/
def storeC6 : List (Row ℚ) := [rowA, rowB]

def qvC6 : List ℚ := [1, 0]

/-! # Supporting lemmas -/

theorem insertLoop_mem {α : Type} (dim : Nat) :
    ∀ (bs : List (BufRow α)) (nextId : Nat) (r : Row α),
      r ∈ (insertLoop dim nextId bs).1 →
      r.data ∈ bs ∧ r.data.embedding.length = dim := by
  intro bs
  induction bs with
  | nil => intro n r hr; simp [insertLoop] at hr
  | cons b rest ih =>
    intro n r hr
    unfold insertLoop at hr
    split_ifs at hr with hlen
    · simp only [List.mem_cons] at hr
      rcases hr with hr | hr
      · subst hr; exact ⟨List.mem_cons_self _ _, hlen⟩
      · rcases ih (n + 1) r hr with ⟨h1, h2⟩
        exact ⟨List.mem_cons_of_mem _ h1, h2⟩
    · simp at hr

theorem insertLoop_err {α : Type} (dim : Nat) :
    ∀ (bs : List (BufRow α)) (nextId : Nat),
      (∃ b ∈ bs, b.embedding.length ≠ dim) →
      (insertLoop dim nextId bs).2.2 = true := by
  intro bs
  induction bs with
  | nil =>
    rintro n ⟨b, hb, _⟩
    simp at hb
  | cons b rest ih =>
    rintro n ⟨c, hc, hlen⟩
    unfold insertLoop
    split_ifs with hb
    · rcases List.mem_cons.mp hc with rfl | hc2
      · exact absurd hb hlen
      · exact ih (n + 1) ⟨c, hc2, hlen⟩
    · rfl

theorem insertLoop_good {α : Type} (dim : Nat) :
    ∀ (bs : List (BufRow α)) (nextId : Nat),
      (∀ b ∈ bs, b.embedding.length = dim) →
      insertLoop dim nextId bs = (rowsOfBuf nextId bs, nextId + bs.length, false) := by
  intro bs
  induction bs with
  | nil => intro n _; simp [insertLoop, rowsOfBuf]
  | cons b rest ih =>
    intro n h
    unfold insertLoop
    rw [if_pos (h b (List.mem_cons_self _ _))]
    simp only [ih (n + 1) fun c hc => h c (List.mem_cons_of_mem _ hc), rowsOfBuf,
      List.length_cons, Prod.mk.injEq]
    exact ⟨trivial, by omega, trivial⟩

theorem flush_good {α : Type} (db : DB α) (buf : List (BufRow α)) (dim : Nat)
    (hd : db.dim = some dim) (hb : ∀ b ∈ buf, b.embedding.length = dim) :
    flush_buffer_to_db db buf =
      ({ db with rows := db.rows ++ rowsOfBuf db.nextId buf,
                 nextId := db.nextId + buf.length }, false) := by
  unfold flush_buffer_to_db
  split_ifs with he
  · rw [List.isEmpty_iff.mp he]
    simp [rowsOfBuf]
  · rw [hd]
    simp only [insertLoop_good dim buf db.nextId hb]

theorem hasSubstr_cons (pat : List Char) (c : Char) (cs : List Char)
    (h : hasSubstr pat cs = true) : hasSubstr pat (c :: cs) = true := by
  simp [hasSubstr, h]

theorem hasSubstr_of_leadsWith (pat cs : List Char)
    (h : leadsWith pat cs = true) : hasSubstr pat cs = true := by
  cases cs with
  | nil => simpa [hasSubstr] using h
  | cons c rest => simp [hasSubstr, h]

theorem leadsWith_head (c : Char) (p l : List Char)
    (h : leadsWith (c :: p) l = true) : leadsWith [c] l = true := by
  cases l with
  | nil => simp [leadsWith] at h
  | cons d rest =>
    simp only [leadsWith, Bool.and_eq_true] at h
    simp [leadsWith, h.1]

theorem mem_insortND (x s : String) :
    ∀ l : List String, s ∈ insortND x l → s = x ∨ s ∈ l := by
  intro l
  induction l with
  | nil => intro h; simpa [insortND] using h
  | cons y ys ih =>
    intro h
    unfold insortND at h
    split_ifs at h with h1 h2
    · exact Or.inr h
    · rcases List.mem_cons.mp h with rfl | h3
      · exact Or.inl rfl
      · exact Or.inr h3
    · rcases List.mem_cons.mp h with rfl | h3
      · exact Or.inr (List.mem_cons_self _ _)
      · rcases ih h3 with h4 | h4
        · exact Or.inl h4
        · exact Or.inr (List.mem_cons_of_mem _ h4)

theorem mem_sortDedup (s : String) :
    ∀ l : List String, s ∈ sortDedup l → s ∈ l := by
  intro l
  induction l with
  | nil => intro h; simpa [sortDedup] using h
  | cons x xs ih =>
    intro h
    rcases mem_insortND x s (sortDedup xs) h with rfl | h2
    · exact List.mem_cons_self _ _
    · exact List.mem_cons_of_mem _ (ih h2)

theorem matchSingleC_sound (ones : List Char) (prev : Option Char) (c : Char)
    (rest : List Char) (tag : String) (k : Nat)
    (h : matchSingleC ones prev c rest = some (tag, k)) :
    prevIsHangul prev = false ∧ c ∈ ones ∧ tag = String.mk [c] ∧
    ((k = 0 ∧ ∀ d, rest.head? = some d → isHangulSyl d = false) ∨
     (k = 1 ∧ ∃ d rest2, rest = d :: rest2 ∧ d ∈ PARTICLES ∧
        ∀ e, rest2.head? = some e → isHangulSyl e = false)) := by
  unfold matchSingleC at h
  by_cases hp : prevIsHangul prev
  · rw [if_pos hp] at h
    exact absurd h (by simp)
  · rw [if_neg hp] at h
    by_cases hc : c ∈ ones
    · rw [if_pos hc] at h
      refine ⟨by simp [hp], hc, ?_⟩
      split at h
      · injection h with h2
        rw [Prod.mk.injEq] at h2
        exact ⟨h2.1.symm, Or.inl ⟨h2.2.symm, by simp⟩⟩
      next d rest2 =>
        by_cases hd : d ∈ PARTICLES
        · rw [if_pos hd] at h
          split at h
          · injection h with h2
            rw [Prod.mk.injEq] at h2
            exact ⟨h2.1.symm, Or.inr ⟨h2.2.symm, d, [], rfl, hd, by simp⟩⟩
          next e tail =>
            by_cases he : isHangulSyl e
            · rw [if_pos he] at h
              by_cases hdh : isHangulSyl d
              · rw [if_pos hdh] at h
                exact absurd h (by simp)
              · rw [if_neg hdh] at h
                injection h with h2
                rw [Prod.mk.injEq] at h2
                refine ⟨h2.1.symm, Or.inl ⟨h2.2.symm, ?_⟩⟩
                intro d0 hd0
                injection hd0 with hd0
                subst hd0
                simpa using hdh
            · rw [if_neg he] at h
              injection h with h2
              rw [Prod.mk.injEq] at h2
              refine ⟨h2.1.symm, Or.inr ⟨h2.2.symm, d, e :: tail, rfl, hd, ?_⟩⟩
              intro e0 he0
              injection he0 with he0
              subst he0
              simpa using he
        · rw [if_neg hd] at h
          by_cases hdh : isHangulSyl d
          · rw [if_pos hdh] at h
            exact absurd h (by simp)
          · rw [if_neg hdh] at h
            injection h with h2
            rw [Prod.mk.injEq] at h2
            refine ⟨h2.1.symm, Or.inl ⟨h2.2.symm, ?_⟩⟩
            intro d0 hd0
            injection hd0 with hd0
            subst hd0
            simpa using hdh
    · rw [if_neg hc] at h
      exact absurd h (by simp)

theorem matchMultiC_sound :
    ∀ (multis : List (List Char)) (c : Char) (rest : List Char) (tag : String)
      (k : Nat), matchMultiC multis c rest = some (tag, k) →
      ∃ mrest, tag = String.mk (c :: mrest) ∧ leadsWith mrest rest = true ∧
        (c :: mrest) ∈ multis ∧ k = mrest.length := by
  intro multis
  induction multis with
  | nil => intro c rest tag k h; simp [matchMultiC] at h
  | cons m ms ih =>
    intro c rest tag k h
    cases m with
    | nil =>
      rw [show matchMultiC ([] :: ms) c rest = matchMultiC ms c rest from rfl] at h
      rcases ih c rest tag k h with ⟨mrest, h1, h2, h3, h4⟩
      exact ⟨mrest, h1, h2, List.mem_cons_of_mem _ h3, h4⟩
    | cons mc mrest =>
      unfold matchMultiC at h
      split_ifs at h with hm
      · rw [Bool.and_eq_true] at hm
        injection h with h2
        rw [Prod.mk.injEq] at h2
        have hmc : mc = c := by simpa using hm.1
        subst hmc
        exact ⟨mrest, h2.1.symm, hm.2, List.mem_cons_self _ _, h2.2.symm⟩
      · rcases ih c rest tag k h with ⟨mrest2, h1, h2, h3, h4⟩
        exact ⟨mrest2, h1, h2, List.mem_cons_of_mem _ h3, h4⟩

theorem matchAt_leadsWith (ones : List Char) (multis : List (List Char))
    (prev : Option Char) (c : Char) (rest : List Char) (tag : String) (k : Nat)
    (h : matchAt ones multis prev c rest = some (tag, k)) :
    leadsWith tag.data (c :: rest) = true := by
  unfold matchAt at h
  cases hs : matchSingleC ones prev c rest with
  | some r =>
    rw [hs] at h
    injection h with h2
    subst h2
    obtain ⟨hp, hc, htag, -⟩ := matchSingleC_sound ones prev c rest tag k hs
    rw [htag]
    simp [leadsWith]
  | none =>
    rw [hs] at h
    rcases matchMultiC_sound multis c rest tag k h with ⟨mrest, h1, h2, -, -⟩
    rw [h1]
    simp [leadsWith, h2]

theorem scanAux_sound (ones : List Char) (multis : List (List Char)) :
    ∀ (cs : List Char) (prev : Option Char) (skip : Nat) (s : String),
      s ∈ scanAux ones multis prev skip cs → hasSubstr s.data cs = true := by
  intro cs
  induction cs with
  | nil => intro prev skip s hs; simp [scanAux] at hs
  | cons c rest ih =>
    intro prev skip s hs
    cases skip with
    | succ skip2 =>
      simp only [scanAux] at hs
      exact hasSubstr_cons _ _ _ (ih (some c) skip2 s hs)
    | zero =>
      simp only [scanAux] at hs
      split at hs
      next tag extra heq =>
        rcases List.mem_cons.mp hs with rfl | hs2
        · exact hasSubstr_of_leadsWith _ _
            (matchAt_leadsWith ones multis prev c rest s extra heq)
        · exact hasSubstr_cons _ _ _ (ih (some c) extra s hs2)
      next heq =>
        exact hasSubstr_cons _ _ _ (ih (some c) 0 s hs)

theorem hasSubstr_firstChar (s : String) (cs : List Char)
    (h : hasSubstr s.data cs = true) :
    hasSubstr (firstCharStr s).data cs = true := by
  unfold firstCharStr
  cases hd : s.data with
  | nil =>
    induction cs with
    | nil => simp [hasSubstr, leadsWith]
    | cons c rest ih => simp [hasSubstr, leadsWith]
  | cons c p =>
    rw [hd] at h
    clear hd
    induction cs with
    | nil => simp [hasSubstr, leadsWith] at h
    | cons d rest ih =>
      simp only [hasSubstr, Bool.or_eq_true] at h ⊢
      rcases h with h | h
      · exact Or.inl (leadsWith_head c p _ h)
      · exact Or.inr (ih h)

theorem extractCategory_substr (tags : List String) (text : List Char)
    (kw : String) (hkw : kw ∈ extractCategory tags text) :
    hasSubstr kw.data text = true := by
  simp only [extractCategory] at hkw
  split_ifs at hkw with h1 h2
  · simp at hkw
  · have hkw2 := mem_sortDedup kw _ hkw
    rcases List.mem_map.mp hkw2 with ⟨s, hs, rfl⟩
    exact hasSubstr_firstChar s _
      (scanAux_sound (compileOnes tags) (compileMultis tags) text none 0 s hs)
  · have hkw2 := mem_sortDedup kw _ hkw
    exact scanAux_sound (compileOnes tags) (compileMultis tags) text none 0 kw hkw2

theorem dateAt_month_le : ∀ (cs : List Char) (y m : Nat),
    dateAt cs = some (y, m) → m ≤ 99 := by
  intro cs y m h
  unfold dateAt at h
  split at h
  · rename_i a b c0 d e f tail
    split_ifs at h with hd
    injection h with h2
    rw [Prod.mk.injEq] at h2
    simp only [isAsciiDigit, Bool.and_eq_true, decide_eq_true_eq] at hd
    omega
  · exact absurd h (by simp)

theorem findDate_month_le : ∀ (cs : List Char) (y m : Nat),
    findDate cs = some (y, m) → m ≤ 99 := by
  intro cs
  induction cs with
  | nil => intro y m h; simp [findDate] at h
  | cons c rest ih =>
    intro y m h
    unfold findDate at h
    cases hd : dateAt (c :: rest) with
    | some r =>
      rw [hd] at h
      injection h with h2
      subst h2
      exact dateAt_month_le (c :: rest) y m hd
    | none =>
      rw [hd] at h
      exact ih y m h

theorem sectionData_parts (sec : List Char) (meta : Meta) (t : String)
    (h : sectionData sec = some (meta, t)) :
    meta.month ≤ 99 ∧ ∃ header body : List Char,
      t = mkFullText header body ∧
      meta.tags = extractTags (searchRange header body) := by
  simp only [sectionData] at h
  split_ifs at h with h1 h2 h3
  all_goals (
    split at h
    · exact absurd h (by simp)
    · rename_i y m heq
      injection h with hx
      rw [Prod.mk.injEq] at hx
      obtain ⟨hmeta, ht⟩ := hx
      exact ⟨by rw [← hmeta]; exact findDate_month_le _ y m heq,
        _, _, ht.symm, by rw [← hmeta]⟩)

theorem zipWith_mkBufRow_mem {α : Type} :
    ∀ (ms : List Meta) (es : List (List α)) (r : BufRow α),
      r ∈ List.zipWith mkBufRow ms es → ∃ m ∈ ms, ∃ v ∈ es, r = mkBufRow m v := by
  intro ms
  induction ms with
  | nil => intro es r hr; simp at hr
  | cons m rest ih =>
    intro es r hr
    cases es with
    | nil => simp at hr
    | cons e erest =>
      rw [List.zipWith_cons_cons] at hr
      rcases List.mem_cons.mp hr with rfl | hr2
      · exact ⟨m, List.mem_cons_self _ _, e, List.mem_cons_self _ _, rfl⟩
      · rcases ih erest r hr2 with ⟨m0, hm0, v, hv0, hv⟩
        exact ⟨m0, List.mem_cons_of_mem _ hm0, v, List.mem_cons_of_mem _ hv0, hv⟩

theorem flush_mem {α : Type} (db : DB α) (buf : List (BufRow α)) (row : Row α)
    (h : row ∈ (flush_buffer_to_db db buf).1.rows) :
    row ∈ db.rows ∨ row.data ∈ buf := by
  unfold flush_buffer_to_db at h
  split_ifs at h with he
  · exact Or.inl h
  · cases hd : db.dim with
    | none => rw [hd] at h; exact Or.inl h
    | some d =>
      rw [hd] at h
      rcases List.mem_append.mp h with hr | hr
      · exact Or.inl hr
      · exact Or.inr (insertLoop_mem d buf db.nextId row hr).1

theorem step_skip {α : Type} (enc : Enc α) (st : PipeState α) (sec : List Char)
    (hsd : sectionData sec = none) : step enc st sec = st := by
  unfold step
  rw [hsd]

theorem step_some {α : Type} (enc : Enc α) (st : PipeState α) (sec : List Char)
    (meta : Meta) (t : String) (hsd : sectionData sec = some (meta, t)) :
    step enc st sec =
      (fun st1 : PipeState α =>
        if DB_INSERT_BATCH ≤ st1.buffer.length then
          { st1 with db := (flush_buffer_to_db st1.db st1.buffer).1, buffer := [] }
        else st1)
      (match enc st.calls (st.batchTexts ++ [t]) with
       | some embs =>
         { st with
             buffer := st.buffer ++
               List.zipWith mkBufRow (st.batchMeta ++ [meta]) embs,
             batchTexts := [], batchMeta := [],
             calls := st.calls + 1, sent := st.sent ++ [st.batchTexts ++ [t]] }
       | none =>
         { st with batchTexts := [], batchMeta := [],
                   calls := st.calls + 1,
                   sent := st.sent ++ [st.batchTexts ++ [t]] }) := by
  unfold step
  rw [hsd]
  dsimp only
  have hb : BATCH_SIZE ≤ (st.batchTexts ++ [t]).length := by simp [BATCH_SIZE]
  rw [if_pos hb]

theorem foldl_step_preserve {α : Type} {P : PipeState α → Prop} (enc : Enc α)
    (hstep : ∀ st sec, P st → P (step enc st sec)) :
    ∀ (secs : List (List Char)) (st : PipeState α),
      P st → P (secs.foldl (step enc) st) := by
  intro secs
  induction secs with
  | nil => intro st h; exact h
  | cons s rest ih => intro st h; exact ih _ (hstep st s h)

theorem step_months {α : Type} (enc : Enc α) (st : PipeState α) (sec : List Char)
    (h : (∀ r ∈ st.db.rows, r.data.month ≤ 99) ∧
         (∀ b ∈ st.buffer, b.month ≤ 99) ∧
         (∀ m ∈ st.batchMeta, m.month ≤ 99)) :
    (∀ r ∈ (step enc st sec).db.rows, r.data.month ≤ 99) ∧
    (∀ b ∈ (step enc st sec).buffer, b.month ≤ 99) ∧
    (∀ m ∈ (step enc st sec).batchMeta, m.month ≤ 99) := by
  obtain ⟨h1, h2, h3⟩ := h
  cases hsd : sectionData sec with
  | none => rw [step_skip enc st sec hsd]; exact ⟨h1, h2, h3⟩
  | some p =>
    obtain ⟨meta, t⟩ := p
    have hm := (sectionData_parts sec meta t hsd).1
    rw [step_some enc st sec meta t hsd]
    cases henc : enc st.calls (st.batchTexts ++ [t]) with
    | some embs =>
      have hbuf : ∀ b ∈ st.buffer ++
          List.zipWith mkBufRow (st.batchMeta ++ [meta]) embs, b.month ≤ 99 := by
        intro b hb
        rcases List.mem_append.mp hb with hb | hb
        · exact h2 b hb
        · rcases zipWith_mkBufRow_mem _ _ _ hb with ⟨m0, hm0, v, hv0, rfl⟩
          rcases List.mem_append.mp hm0 with hm1 | hm1
          · exact h3 m0 hm1
          · rw [List.mem_singleton.mp hm1]
            exact hm
      dsimp only
      split
      · refine ⟨?_, by simp, by simp⟩
        intro r hr
        rcases flush_mem _ _ _ hr with hr | hr
        · exact h1 r hr
        · exact hbuf r.data hr
      · exact ⟨h1, hbuf, by simp⟩
    | none =>
      dsimp only
      split
      · refine ⟨?_, by simp, by simp⟩
        intro r hr
        rcases flush_mem _ _ _ hr with hr | hr
        · exact h1 r hr
        · exact h2 r.data hr
      · exact ⟨h1, h2, by simp⟩

theorem mem_stripLinkAux (c : Char) :
    ∀ (cs : List Char) (skip : Nat), c ∈ stripLinkAux skip cs → c = ' ' ∨ c ∈ cs := by
  intro cs
  induction cs with
  | nil => intro skip h; simp [stripLinkAux] at h
  | cons d rest ih =>
    intro skip h
    cases skip with
    | succ k =>
      simp only [stripLinkAux] at h
      rcases ih k h with h2 | h2
      · exact Or.inl h2
      · exact Or.inr (List.mem_cons_of_mem _ h2)
    | zero =>
      simp only [stripLinkAux] at h
      split at h
      · rcases List.mem_cons.mp h with rfl | h2
        · exact Or.inl rfl
        · rcases ih _ h2 with h3 | h3
          · exact Or.inl h3
          · exact Or.inr (List.mem_cons_of_mem _ h3)
      all_goals (
        rcases List.mem_cons.mp h with rfl | h2
        · exact Or.inr (List.mem_cons_self _ _)
        · rcases ih 0 h2 with h3 | h3
          · exact Or.inl h3
          · exact Or.inr (List.mem_cons_of_mem _ h3))

theorem mem_subPipeDash (c : Char) (l : List Char) (h : c ∈ subPipeDash l) :
    c = ' ' ∨ (c ∈ l ∧ c ≠ '|' ∧ c ≠ '-') := by
  rcases List.mem_map.mp h with ⟨a, ha, hf⟩
  by_cases hc : (a = '|' || a = '-') = true
  · rw [if_pos hc] at hf
    exact Or.inl hf.symm
  · rw [if_neg hc] at hf
    subst hf
    simp only [Bool.or_eq_true, decide_eq_true_eq, not_or] at hc
    exact Or.inr ⟨ha, hc.1, hc.2⟩

theorem mem_subMarkup (c : Char) (l : List Char) (h : c ∈ subMarkup l) :
    c = ' ' ∨ (c ∈ l ∧ c ≠ '#' ∧ c ≠ '*' ∧ c.toNat ≠ 96 ∧ c ≠ '>') := by
  rcases List.mem_map.mp h with ⟨a, ha, hf⟩
  by_cases hc : (a = '#' || a = '*' || a.toNat == 96 || a = '>') = true
  · rw [if_pos hc] at hf
    exact Or.inl hf.symm
  · rw [if_neg hc] at hf
    subst hf
    simp only [Bool.or_eq_true, decide_eq_true_eq, beq_iff_eq, not_or] at hc
    exact Or.inr ⟨ha, hc.1.1.1, hc.1.1.2, hc.1.2, hc.2⟩

theorem mem_collapseWsAux (c : Char) :
    ∀ (cs : List Char) (b : Bool), c ∈ collapseWsAux b cs →
      c = ' ' ∨ (c ∈ cs ∧ isPySpace c = false) := by
  intro cs
  induction cs with
  | nil => intro b h; simp [collapseWsAux] at h
  | cons d rest ih =>
    intro b h
    unfold collapseWsAux at h
    split_ifs at h with hd hb
    · rcases ih true h with h2 | h2
      · exact Or.inl h2
      · exact Or.inr ⟨List.mem_cons_of_mem _ h2.1, h2.2⟩
    · rcases List.mem_cons.mp h with rfl | h2
      · exact Or.inl rfl
      · rcases ih true h2 with h3 | h3
        · exact Or.inl h3
        · exact Or.inr ⟨List.mem_cons_of_mem _ h3.1, h3.2⟩
    · rcases List.mem_cons.mp h with rfl | h2
      · exact Or.inr ⟨List.mem_cons_self _ _, by simpa using hd⟩
      · rcases ih false h2 with h3 | h3
        · exact Or.inl h3
        · exact Or.inr ⟨List.mem_cons_of_mem _ h3.1, h3.2⟩

theorem mem_dropWhile (p : Char → Bool) (c : Char) :
    ∀ l : List Char, c ∈ l.dropWhile p → c ∈ l := by
  intro l
  induction l with
  | nil => intro h; simpa using h
  | cons d rest ih =>
    intro h
    rw [List.dropWhile_cons] at h
    split_ifs at h with hd
    · exact List.mem_cons_of_mem _ (ih h)
    · exact h

theorem mem_pyStrip (c : Char) (l : List Char) (h : c ∈ pyStrip l) : c ∈ l := by
  unfold pyStrip at h
  rw [List.mem_reverse] at h
  have h2 := mem_dropWhile _ _ _ h
  rw [List.mem_reverse] at h2
  exact mem_dropWhile _ _ _ h2

theorem head_dropWhile_not (p : Char → Bool) :
    ∀ (l : List Char) (c : Char), (l.dropWhile p).head? = some c → p c = false := by
  intro l
  induction l with
  | nil => intro c h; simp at h
  | cons d rest ih =>
    intro c h
    rw [List.dropWhile_cons] at h
    split_ifs at h with hd
    · exact ih c h
    · injection h with h2
      subst h2
      simpa using hd

theorem getLast_dropWhile (p : Char → Bool) :
    ∀ (l : List Char) (c : Char), (l.dropWhile p).getLast? = some c →
      l.getLast? = some c := by
  intro l
  induction l with
  | nil => intro c h; simp at h
  | cons d rest ih =>
    intro c h
    rw [List.dropWhile_cons] at h
    split_ifs at h with hd
    · have h2 := ih c h
      cases rest with
      | nil => simp at h2
      | cons e erest => rw [List.getLast?_cons_cons]; exact h2
    · exact h

theorem pyStrip_head_not (l : List Char) (c : Char)
    (h : (pyStrip l).head? = some c) : isPySpace c = false := by
  unfold pyStrip at h
  rw [List.head?_reverse] at h
  have h2 := getLast_dropWhile isPySpace _ c h
  rw [List.getLast?_reverse] at h2
  exact head_dropWhile_not isPySpace _ c h2

theorem pyStrip_last_not (l : List Char) (c : Char)
    (h : (pyStrip l).getLast? = some c) : isPySpace c = false := by
  unfold pyStrip at h
  rw [List.getLast?_reverse] at h
  exact head_dropWhile_not isPySpace _ c h

theorem collapseWsAux_head_true :
    ∀ (cs : List Char) (c : Char), (collapseWsAux true cs).head? = some c →
      isPySpace c = false := by
  intro cs
  induction cs with
  | nil => intro c h; simp [collapseWsAux] at h
  | cons d rest ih =>
    intro c h
    by_cases hd : isPySpace d = true
    · simp only [collapseWsAux, hd, if_true] at h
      exact ih c h
    · simp [collapseWsAux, hd] at h
      subst h
      simpa using hd

theorem chain'_collapseWsAux :
    ∀ (cs : List Char) (b : Bool),
      List.Chain' (fun x y : Char => isPySpace x = false ∨ isPySpace y = false)
        (collapseWsAux b cs) := by
  intro cs
  induction cs with
  | nil => intro b; simp [collapseWsAux]
  | cons d rest ih =>
    intro b
    unfold collapseWsAux
    split_ifs with hd hb
    · exact ih true
    · rw [List.chain'_cons']
      refine ⟨?_, ih true⟩
      intro y hy
      exact Or.inr (collapseWsAux_head_true rest y (Option.mem_def.mp hy))
    · rw [List.chain'_cons']
      refine ⟨?_, ih false⟩
      intro y _
      exact Or.inl (by simpa using hd)

theorem chain'_dropWhile {R : Char → Char → Prop} (p : Char → Bool) :
    ∀ l : List Char, List.Chain' R l → List.Chain' R (l.dropWhile p) := by
  intro l
  induction l with
  | nil => intro h; simpa using h
  | cons d rest ih =>
    intro h
    rw [List.dropWhile_cons]
    split_ifs with hd
    · exact ih h.tail
    · exact h

theorem chain'_reverse_symm {R : Char → Char → Prop}
    (hsymm : ∀ x y, R x y → R y x) (l : List Char) (h : List.Chain' R l) :
    List.Chain' R l.reverse := by
  rw [List.chain'_reverse]
  exact List.Chain'.imp (fun a b hab => hsymm a b hab) h

theorem chain'_pyStrip {R : Char → Char → Prop}
    (hsymm : ∀ x y, R x y → R y x) (l : List Char) (h : List.Chain' R l) :
    List.Chain' R (pyStrip l) := by
  unfold pyStrip
  exact chain'_reverse_symm hsymm _
    (chain'_dropWhile isPySpace _ (chain'_reverse_symm hsymm _
      (chain'_dropWhile isPySpace _ h)))

theorem mkFullText_length_le (header body : List Char) :
    (mkFullText header body).length ≤ MAX_TEXT_LENGTH := by
  have h : ∀ l : List Char, (String.mk l).length = l.length := fun l => rfl
  unfold mkFullText
  rw [h, List.length_take]
  exact Nat.min_le_left _ _

theorem step_texts {α : Type} (enc : Enc α) (st : PipeState α) (sec : List Char)
    (h : (∀ b ∈ st.sent, ∀ t ∈ b, t.length ≤ MAX_TEXT_LENGTH) ∧
         (∀ t ∈ st.batchTexts, t.length ≤ MAX_TEXT_LENGTH)) :
    (∀ b ∈ (step enc st sec).sent, ∀ t ∈ b, t.length ≤ MAX_TEXT_LENGTH) ∧
    (∀ t ∈ (step enc st sec).batchTexts, t.length ≤ MAX_TEXT_LENGTH) := by
  obtain ⟨h1, h2⟩ := h
  cases hsd : sectionData sec with
  | none => rw [step_skip enc st sec hsd]; exact ⟨h1, h2⟩
  | some p =>
    obtain ⟨meta, t⟩ := p
    obtain ⟨-, header, body, ht, -⟩ := sectionData_parts sec meta t hsd
    have htl : t.length ≤ MAX_TEXT_LENGTH := by
      rw [ht]; exact mkFullText_length_le header body
    have hbt : ∀ t0 ∈ st.batchTexts ++ [t], t0.length ≤ MAX_TEXT_LENGTH := by
      intro t0 ht0
      rcases List.mem_append.mp ht0 with ht1 | ht1
      · exact h2 t0 ht1
      · rw [List.mem_singleton.mp ht1]; exact htl
    have hsent : ∀ b ∈ st.sent ++ [st.batchTexts ++ [t]], ∀ t0 ∈ b,
        t0.length ≤ MAX_TEXT_LENGTH := by
      intro b hb
      rcases List.mem_append.mp hb with hb1 | hb1
      · exact h1 b hb1
      · rw [List.mem_singleton.mp hb1]; exact hbt
    rw [step_some enc st sec meta t hsd]
    cases henc : enc st.calls (st.batchTexts ++ [t]) with
    | some embs =>
      dsimp only
      split
      · exact ⟨hsent, by simp⟩
      · exact ⟨hsent, by simp⟩
    | none =>
      dsimp only
      split
      · exact ⟨hsent, by simp⟩
      · exact ⟨hsent, by simp⟩

theorem rowsOfBuf_append {α : Type} :
    ∀ (a b : List (BufRow α)) (n : Nat),
      rowsOfBuf n (a ++ b) = rowsOfBuf n a ++ rowsOfBuf (n + a.length) b := by
  intro a
  induction a with
  | nil => intro b n; simp [rowsOfBuf]
  | cons x xs ih =>
    intro b n
    simp only [List.cons_append, rowsOfBuf, List.length_cons, List.append_eq, ih]
    have he : n + 1 + xs.length = n + (xs.length + 1) := by omega
    rw [he]

theorem rowsOfBuf_length {α : Type} :
    ∀ (bs : List (BufRow α)) (n : Nat), (rowsOfBuf n bs).length = bs.length := by
  intro bs
  induction bs with
  | nil => intro n; simp [rowsOfBuf]
  | cons x xs ih => intro n; simp [rowsOfBuf, ih]

theorem step_batchTexts_nil {α : Type} (enc : Enc α) (st : PipeState α)
    (sec : List Char) (h : st.batchTexts = []) :
    (step enc st sec).batchTexts = [] := by
  cases hsd : sectionData sec with
  | none => rw [step_skip enc st sec hsd]; exact h
  | some p =>
    obtain ⟨meta, t⟩ := p
    rw [step_some enc st sec meta t hsd]
    cases henc : enc st.calls (st.batchTexts ++ [t]) <;> dsimp only <;>
      split <;> rfl

/-- The main loop invariant: starting from a state with an empty batch, a
below-threshold well-formed buffer and a consistent id sequence, the fold
over any list of sections ends in such a state again, the encode-call count
advances by the number of parsed sections, and the persisted rows followed
by the still-buffered rows are exactly the successfully encoded records of
the parsed sections, numbered consecutively. -/
theorem pipe_fold_spec {α : Type} (dim : Nat) (enc : Enc α)
    (henc : ∀ i ts vs, enc i ts = some vs → ∀ v ∈ vs, v.length = dim) :
    ∀ (secs : List (List Char)) (st : PipeState α),
      st.batchTexts = [] → st.batchMeta = [] → st.db.dim = some dim →
      (∀ b ∈ st.buffer, b.embedding.length = dim) →
      st.buffer.length < DB_INSERT_BATCH →
      st.db.nextId = st.db.rows.length + 1 →
      (secs.foldl (step enc) st).batchTexts = [] ∧
      (secs.foldl (step enc) st).batchMeta = [] ∧
      (secs.foldl (step enc) st).db.dim = some dim ∧
      (∀ b ∈ (secs.foldl (step enc) st).buffer, b.embedding.length = dim) ∧
      (secs.foldl (step enc) st).buffer.length < DB_INSERT_BATCH ∧
      (secs.foldl (step enc) st).db.nextId =
        (secs.foldl (step enc) st).db.rows.length + 1 ∧
      (secs.foldl (step enc) st).db.rows ++
          rowsOfBuf (secs.foldl (step enc) st).db.nextId
            (secs.foldl (step enc) st).buffer =
        st.db.rows ++ rowsOfBuf st.db.nextId
          (st.buffer ++ goodRows enc st.calls (secs.filterMap sectionData)) := by
  intro secs
  induction secs with
  | nil =>
    intro st h1 h2 h3 h4 h5 h6
    simp only [List.foldl_nil, List.filterMap_nil, goodRows, List.append_nil]
    exact ⟨h1, h2, h3, h4, h5, h6, trivial⟩
  | cons sec rest ih =>
    intro st h1 h2 h3 h4 h5 h6
    rw [List.foldl_cons, List.filterMap_cons]
    cases hsd : sectionData sec with
    | none =>
      rw [step_skip enc st sec hsd]
      exact ih st h1 h2 h3 h4 h5 h6
    | some p =>
      obtain ⟨meta, t⟩ := p
      rw [step_some enc st sec meta t hsd]
      rw [h1, h2]
      simp only [List.nil_append]
      cases henc2 : enc st.calls [t] with
      | some embs =>
        dsimp only
        have hg : ∀ b ∈ List.zipWith mkBufRow [meta] embs,
            b.embedding.length = dim := by
          intro b hb
          rcases zipWith_mkBufRow_mem _ _ _ hb with ⟨m0, hm0, v, hv0, rfl⟩
          exact henc _ _ _ henc2 v hv0
        have hballlen : ∀ b ∈ st.buffer ++ List.zipWith mkBufRow [meta] embs,
            b.embedding.length = dim := by
          intro b hb
          rcases List.mem_append.mp hb with hb | hb
          · exact h4 b hb
          · exact hg b hb
        split
        next hfl =>
          rw [flush_good st.db _ dim h3 hballlen]
          dsimp only
          have hnext : st.db.nextId +
              (st.buffer ++ List.zipWith mkBufRow [meta] embs).length =
              (st.db.rows ++ rowsOfBuf st.db.nextId
                (st.buffer ++ List.zipWith mkBufRow [meta] embs)).length + 1 := by
            simp only [List.length_append, rowsOfBuf_length]
            omega
          have hres := ih
            { db := { dim := st.db.dim,
                      nextId := st.db.nextId +
                        (st.buffer ++ List.zipWith mkBufRow [meta] embs).length,
                      rows := st.db.rows ++ rowsOfBuf st.db.nextId
                        (st.buffer ++ List.zipWith mkBufRow [meta] embs) },
              buffer := [], batchTexts := [], batchMeta := [],
              calls := st.calls + 1, sent := st.sent ++ [[t]] }
            rfl rfl h3 (by simp) (by simp [DB_INSERT_BATCH]) hnext
          obtain ⟨g1, g2, g3, g4, g5, g6, g7⟩ := hres
          refine ⟨g1, g2, g3, g4, g5, g6, ?_⟩
          rw [g7]
          dsimp only
          rw [goodRows, henc2]
          simp only [List.nil_append, rowsOfBuf_append, List.append_assoc,
            List.length_append, Nat.add_assoc]
        next hfl =>
          have hlen2 : (st.buffer ++ List.zipWith mkBufRow [meta] embs).length <
              DB_INSERT_BATCH := by omega
          have hres := ih
            { db := st.db,
              buffer := st.buffer ++ List.zipWith mkBufRow [meta] embs,
              batchTexts := [], batchMeta := [],
              calls := st.calls + 1, sent := st.sent ++ [[t]] }
            rfl rfl h3 hballlen hlen2 h6
          obtain ⟨g1, g2, g3, g4, g5, g6, g7⟩ := hres
          refine ⟨g1, g2, g3, g4, g5, g6, ?_⟩
          rw [g7]
          dsimp only
          rw [goodRows, henc2]
          simp only [List.nil_append, rowsOfBuf_append, List.append_assoc,
            List.length_append, Nat.add_assoc]
      | none =>
        dsimp only
        split
        next hfl =>
          exact absurd hfl (by omega)
        next hfl =>
          have hres := ih
            { db := st.db, buffer := st.buffer, batchTexts := [], batchMeta := [],
              calls := st.calls + 1, sent := st.sent ++ [[t]] }
            rfl rfl h3 h4 h5 h6
          obtain ⟨g1, g2, g3, g4, g5, g6, g7⟩ := hres
          refine ⟨g1, g2, g3, g4, g5, g6, ?_⟩
          rw [g7]
          dsimp only
          rw [goodRows, henc2]
          simp

/-! # Claim theorems -/

/-- Claim C1, amended.  As the claim states it, init_schema is idempotent
when re-invoked with the same dimension; but re-invoking it with a different
dimension on an existing store is silently ignored (CREATE TABLE IF NOT
EXISTS raises nothing and the store keeps its original dimension), and a
record whose embedding length differs from the declared dimension is refused
by the insert — never truncated or padded — with the error caught and logged,
so the run continues rather than failing fatally. -/
theorem claim_C1 :
    (∀ (α : Type) (db : DB α) (d : Nat),
        init_db (init_db db d) d = init_db db d) ∧
    (∀ (α : Type) (db : DB α) (d e : Nat), db.dim = some d → init_db db e = db) ∧
    (∀ (α : Type) (db : DB α) (buf : List (BufRow α)) (n : Nat),
        db.dim = some n →
        ((∃ b ∈ buf, b.embedding.length ≠ n) →
            (flush_buffer_to_db db buf).2 = true) ∧
        (∀ row ∈ (flush_buffer_to_db db buf).1.rows,
            row ∈ db.rows ∨ (row.data ∈ buf ∧ row.data.embedding.length = n))) := by
  refine ⟨?_, ?_, ?_⟩
  · intro α db d
    cases h : db.dim <;> simp [init_db, h]
  · intro α db d e h
    simp [init_db, h]
  · intro α db buf n hd
    constructor
    · rintro ⟨b, hb, hlen⟩
      unfold flush_buffer_to_db
      split_ifs with he
      · rw [List.isEmpty_iff.mp he] at hb
        simp at hb
      · rw [hd]
        exact insertLoop_err n buf db.nextId ⟨b, hb, hlen⟩
    · intro row hrow
      unfold flush_buffer_to_db at hrow
      split_ifs at hrow with he
      · exact Or.inl hrow
      · rw [hd] at hrow
        rcases List.mem_append.mp hrow with h1 | h1
        · exact Or.inl h1
        · exact Or.inr (insertLoop_mem n buf db.nextId row h1)

/-- Claim C1 counterexample: initialising a store with dimension 768 and
re-invoking init_db with dimension 1024 reports no error at all — the second
call returns the store unchanged, its dimension still 768. -/
theorem claim_C1_counterexample :
    init_db (init_db (emptyDB : DB ℚ) 768) 1024 = init_db emptyDB 768 ∧
    (init_db (init_db (emptyDB : DB ℚ) 768) 1024).dim = some 768 :=
  ⟨rfl, rfl⟩

/-- Claim C1 witness: the amended statement at a concrete store of dimension
768 and a buffered record of embedding length one. -/
theorem claim_C1_witness :
    init_db (init_db (emptyDB : DB ℚ) 768) 768 = init_db emptyDB 768 ∧
    (flush_buffer_to_db (init_db (emptyDB : DB ℚ) 768) [shortBufRow]).2 = true ∧
    (∀ row ∈ (flush_buffer_to_db (init_db (emptyDB : DB ℚ) 768) [shortBufRow]).1.rows,
        row ∈ (init_db (emptyDB : DB ℚ) 768).rows ∨
          (row.data ∈ [shortBufRow] ∧ row.data.embedding.length = 768)) := by
  refine ⟨claim_C1.1 ℚ emptyDB 768, ?_, ?_⟩
  · exact (claim_C1.2.2 ℚ (init_db emptyDB 768) [shortBufRow] 768 rfl).1
      ⟨shortBufRow, by simp, by decide⟩
  · exact (claim_C1.2.2 ℚ (init_db emptyDB 768) [shortBufRow] 768 rfl).2

/-- Claim C3 counterexample: the section headed by the bracketed token
2024-13 is accepted and persisted as a record whose month is thirteen, so
months are not confined to one through twelve and the malformed header is
silently accepted. -/
theorem claim_C3_counterexample :
    (buildDatabase 2 encConst2 docMonth13).toOption.map
        (fun db => db.rows.map fun r => (r.data.year, r.data.month)) =
      some [(2024, 13)] := by
  rfl

/-- Claim C5, code bug.  Ingesting the scenario document does produce exactly
two records, skipping the table-of-contents section, with years, months and
crop tags as the claim expects; but the pest tag stored for the second record
is the single character 탄, not the dictionary keyword 탄저병: for categories
whose keywords are all multi-character the compiled pattern has one capturing
group, re.findall returns plain strings, and the cleanup keeps only the first
character of each match. -/
theorem claim_C5 :
    (buildDatabase 4 encConst4 docScenario).toOption.map
        (fun db => db.rows.map fun r =>
          (r.data.year, r.data.month, r.data.tags_crop, r.data.tags_pest)) =
      some [(2024, 5, ["벼"], []), (2024, 6, ["고추"], ["탄"])] ∧
    ("탄저병" : String) ∉ (["탄"] : List String) := by
  exact ⟨rfl, by decide⟩

/-- Claim C6, amended.  Every possible answer of the ranking query is a list
of at most five records drawn from the store, in non-increasing score order;
the SQL has no id tie-break, so nothing more is guaranteed for tied
scores. -/
theorem claim_C6 :
    ∀ (sim : List ℚ → List ℚ → ℚ) (qv : List ℚ) (rows out : List (Row ℚ)),
      rankRel sim qv rows out →
      out.Pairwise (fun a b => sim b.data.embedding qv ≤ sim a.data.embedding qv) ∧
      out.length ≤ 5 ∧ ∀ r ∈ out, r ∈ rows := by
  rintro sim qv rows out ⟨perm, hperm, hsort, rfl⟩
  refine ⟨List.Pairwise.sublist (List.take_sublist 5 perm) hsort,
    List.length_take_le 5 perm, ?_⟩
  intro r hr
  exact hperm.symm.subset (List.take_subset 5 perm hr)

/-- Claim C6 counterexample: on a store with two records sharing one
embedding (hence equal scores for any scoring function), both orders are
possible answers of the ranking query; the order with descending ids
violates the claimed id tie-break, and the two distinct possible answers
refute determinism across calls. -/
theorem claim_C6_counterexample :
    rankRel dotQ qvC6 storeC6 [rowB, rowA] ∧
    rankRel dotQ qvC6 storeC6 [rowA, rowB] ∧
    ¬ tieBrokenById dotQ qvC6 [rowB, rowA] ∧
    ([rowB, rowA] : List (Row ℚ)) ≠ [rowA, rowB] := by
  have hpair : ∀ x y : Row ℚ, x.data.embedding = [1, 0] → y.data.embedding = [1, 0] →
      List.Pairwise
        (fun a b => dotQ b.data.embedding qvC6 ≤ dotQ a.data.embedding qvC6) [x, y] := by
    intro x y hx hy
    refine List.Pairwise.cons ?_ (List.pairwise_singleton _ _)
    intro b hb
    rcases List.mem_singleton.mp hb with rfl
    rw [hx, hy]
  refine ⟨⟨[rowB, rowA], List.Perm.swap rowB rowA [], hpair rowB rowA rfl rfl, rfl⟩,
    ⟨[rowA, rowB], List.Perm.refl _, hpair rowA rowB rfl rfl, rfl⟩, ?_, ?_⟩
  · intro hcon
    rcases List.pairwise_cons.mp hcon with ⟨hrel, _⟩
    rcases hrel rowA (List.mem_singleton.mpr rfl) with hlt | ⟨_, hid⟩
    · exact absurd hlt (lt_irrefl _)
    · exact absurd hid (by decide)
  · intro hcon
    have h2 := congrArg (fun l : List (Row ℚ) => (l.headD rowA).id) hcon
    simp [rowA, rowB] at h2

/-- Claim C6 witness: the amended statement at a one-row store, the ranking
relation discharged by the identity reordering. -/
theorem claim_C6_witness :
    ([rowA] : List (Row ℚ)).Pairwise
      (fun a b => dotQ b.data.embedding qvC6 ≤ dotQ a.data.embedding qvC6) ∧
    ([rowA] : List (Row ℚ)).length ≤ 5 ∧
    ∀ r ∈ ([rowA] : List (Row ℚ)), r ∈ [rowA] :=
  claim_C6 dotQ qvC6 [rowA] [rowA]
    ⟨[rowA], List.Perm.refl _, List.pairwise_singleton _ _, rfl⟩

/-- Claim C7: a query string shorter than two characters causes zero calls
to the embedding backend — the empty string is ignored by the widget
truthiness test and a one-character query only raises the warning, both
before any encode. -/
theorem claim_C7 : ∀ q : String, q.length < 2 → (queryFlow q).2 = 0 := by
  intro q h
  unfold queryFlow
  by_cases h1 : q.isEmpty
  · simp [h1]
  · simp [h1, h]

/-- Claim C7 witness: the one-character query. -/
theorem claim_C7_witness : ("a" : String).length < 2 ∧ (queryFlow "a").2 = 0 :=
  ⟨by decide, claim_C7 "a" (by decide)⟩

/-- Claim C2: no encode failure aborts the run — build_database returns
normally for every backend behaviour (the unprotected remainder encode is
unreachable because with a batch size of one the batch is always flushed
inside the loop) — and when the backend returns vectors of the declared
dimension on success, the persisted rows are exactly the records of the
sections whose encode call succeeded, in order, consecutively numbered from
one: a failed call drops just its own batch and processing continues. -/
theorem claim_C2 :
    (∀ (α : Type) (dim : Nat) (enc : Enc α) (doc : List Char),
        ∃ db : DB α, buildDatabase dim enc doc = Except.ok db) ∧
    (∀ (α : Type) (dim : Nat) (enc : Enc α) (doc : List Char),
        (∀ i ts vs, enc i ts = some vs → ∀ v ∈ vs, v.length = dim) →
        ∃ db : DB α, buildDatabase dim enc doc = Except.ok db ∧
          db.rows = rowsOfBuf 1 (expectedRows enc doc)) := by
  have hok : ∀ (α : Type) (dim : Nat) (enc : Enc α) (doc : List Char),
      (pipeStateOf dim enc doc).batchTexts = [] := by
    intro α dim enc doc
    exact foldl_step_preserve enc
      (fun st sec h => step_batchTexts_nil enc st sec h) (splitSections doc)
      { db := init_db emptyDB dim, buffer := [], batchTexts := [],
        batchMeta := [], calls := 0, sent := [] } rfl
  constructor
  · intro α dim enc doc
    simp only [buildDatabase]
    split
    · split_ifs <;> exact ⟨_, rfl⟩
    next t ts heq =>
      rw [hok α dim enc doc] at heq
      cases heq
  · intro α dim enc doc henc
    obtain ⟨s1, s2, s3, s4, s5, s6, s7⟩ := pipe_fold_spec dim enc henc
      (splitSections doc)
      { db := init_db emptyDB dim, buffer := [], batchTexts := [],
        batchMeta := [], calls := 0, sent := [] }
      rfl rfl rfl (fun b hb => absurd hb (List.not_mem_nil b))
      (by simp [DB_INSERT_BATCH]) rfl
    have hok2 := hok α dim enc doc
    simp only [pipeStateOf] at hok2
    simp only [buildDatabase, pipeStateOf]
    split
    next heq =>
      split_ifs with he
      · refine ⟨_, rfl, ?_⟩
        have hbe := List.isEmpty_iff.mp he
        rw [hbe] at s7
        simp only [rowsOfBuf, List.append_nil] at s7
        rw [s7]
        simp [init_db, emptyDB, expectedRows, parsedSections]
      · refine ⟨_, rfl, ?_⟩
        rw [flush_good _ _ dim s3 s4]
        dsimp only
        rw [s7]
        simp [init_db, emptyDB, expectedRows, parsedSections]
    next t ts heq =>
      rw [hok2] at heq
      cases heq

/-- Claim C2 witness: a backend failing on its first call and succeeding
afterwards, over a two-section document: the run returns normally and stores
exactly the second section as row one. -/
theorem claim_C2_witness :
    ∃ db : DB ℚ, buildDatabase 2 encFail0 docTwo = Except.ok db ∧
      db.rows = rowsOfBuf 1 (expectedRows encFail0 docTwo) := by
  refine claim_C2.2 ℚ 2 encFail0 docTwo ?_
  intro i ts vs h v hv
  unfold encFail0 at h
  split_ifs at h with hi
  injection h with h2
  subst h2
  rcases List.mem_map.mp hv with ⟨a, ha, rfl⟩
  rfl

/-- Claim C3, amended.  Months are parsed verbatim from the two digits of
the bracketed date token with no range validation: every persisted record
has a month between zero and ninety-nine, and out-of-range months such as
thirteen are silently accepted (see the counterexample). -/
theorem claim_C3 :
    ∀ (α : Type) (dim : Nat) (enc : Enc α) (doc : List Char) (db : DB α),
      buildDatabase dim enc doc = Except.ok db →
      ∀ r ∈ db.rows, r.data.month ≤ 99 := by
  intro α dim enc doc db hdb r hr
  have hinv : (∀ r ∈ (pipeStateOf dim enc doc).db.rows, r.data.month ≤ 99) ∧
      (∀ b ∈ (pipeStateOf dim enc doc).buffer, b.month ≤ 99) ∧
      (∀ m ∈ (pipeStateOf dim enc doc).batchMeta, m.month ≤ 99) := by
    refine foldl_step_preserve enc
      (fun st sec h => step_months enc st sec h) (splitSections doc) _ ?_
    refine ⟨by simp [init_db, emptyDB], by simp, by simp⟩
  obtain ⟨hinv1, hinv2, hinv3⟩ := hinv
  simp only [buildDatabase] at hdb
  split at hdb
  next hbt =>
    split_ifs at hdb with he
    · injection hdb with hdb
      subst hdb
      exact hinv1 r hr
    · injection hdb with hdb
      subst hdb
      rcases flush_mem _ _ _ hr with hr2 | hr2
      · exact hinv1 r hr2
      · exact hinv2 r.data hr2
  next t ts hbt =>
    split at hdb
    · exact absurd hdb (by simp)
    next embs henc =>
      split_ifs at hdb with he
      · injection hdb with hdb
        subst hdb
        exact hinv1 r hr
      · injection hdb with hdb
        subst hdb
        rcases flush_mem _ _ _ hr with hr2 | hr2
        · exact hinv1 r hr2
        · rcases List.mem_append.mp hr2 with hr3 | hr3
          · exact hinv2 r.data hr3
          · rcases zipWith_mkBufRow_mem _ _ _ hr3 with ⟨m0, hm0, v, hv0, hv⟩
            rw [hv]
            exact hinv3 m0 hm0

/-- Claim C3 witness: the amended statement at the scenario document, whose
two records carry months five and six. -/
theorem claim_C3_witness :
    ∃ db : DB ℚ, buildDatabase 4 encConst4 docScenario = Except.ok db ∧
      ∀ r ∈ db.rows, r.data.month ≤ 99 := by
  refine ⟨_, rfl, ?_⟩
  exact fun r hr => claim_C3 ℚ 4 encConst4 docScenario _ rfl r hr

/-- Claim C4: a single-character keyword matches only with no Korean
syllable immediately before it, with an optional particle consumed but
excluded from the matched group, and with no Korean syllable right after the
consumed span; concretely, 소는 건강하다 yields the crop tag 소 while 미소는
yields none. -/
theorem claim_C4 :
    (∀ (ones : List Char) (prev : Option Char) (c : Char) (rest : List Char)
        (tag : String) (k : Nat), matchSingleC ones prev c rest = some (tag, k) →
        prevIsHangul prev = false ∧ c ∈ ones ∧ tag = String.mk [c] ∧
        ((k = 0 ∧ ∀ d, rest.head? = some d → isHangulSyl d = false) ∨
         (k = 1 ∧ ∃ d rest2, rest = d :: rest2 ∧ d ∈ PARTICLES ∧
            ∀ e, rest2.head? = some e → isHangulSyl e = false))) ∧
    ("소" : String) ∈ (extractTags ("소는 건강하다".data)).crop ∧
    ("소" : String) ∉ (extractTags ("미소는".data)).crop :=
  ⟨fun ones prev c rest tag k h => matchSingleC_sound ones prev c rest tag k h,
   by decide, by decide⟩

/-- Claim C4 witness: the single-keyword matcher at keyword 소 with the
particle 는 consumed, applied to the first characters of the example. -/
theorem claim_C4_witness :
    prevIsHangul none = false ∧ '소' ∈ ['소'] ∧ ("소" : String) = String.mk ['소'] ∧
    ((1 = 0 ∧ ∀ d, ("는 건".data).head? = some d → isHangulSyl d = false) ∨
     (1 = 1 ∧ ∃ d rest2, "는 건".data = d :: rest2 ∧ d ∈ PARTICLES ∧
        ∀ e, rest2.head? = some e → isHangulSyl e = false)) :=
  claim_C4.1 ['소'] none '소' ("는 건".data) "소" 1 (by decide)

/-- Claim C8, code bug.  The pest category dictionary contains only
multi-character keywords, so its compiled pattern has a single capturing
group; re.findall then returns plain match strings and the cleanup keeps
only the first character of each, storing 탄 — a value outside the
dictionary — where the matched keyword was 탄저병. -/
theorem claim_C8 :
    extractCategory PEST_TAGS ("탄저병 확산".data) = ["탄"] ∧
    ("탄" : String) ∉ PEST_TAGS ∧ ("탄저병" : String) ∈ PEST_TAGS := by
  exact ⟨rfl, by decide, by decide⟩

/-- Claim C9: the normalizer leaves no pipe, hyphen, hash, asterisk,
backquote or greater-than character, no whitespace other than a single
space, no two adjacent whitespace characters and no leading or trailing
whitespace; markdown links collapse to a single space (concrete examples);
and the embedding input of every section is the cleaned header joined to the
cleaned body by a dot and space, hard-truncated to the configured maximum,
so no text handed to the embedding backend exceeds that maximum. -/
theorem claim_C9 :
    (∀ (s : String) (c : Char), c ∈ (clean_markdown s).data →
        (c ≠ '|' ∧ c ≠ '-' ∧ c ≠ '#' ∧ c ≠ '*' ∧ c.toNat ≠ 96 ∧ c ≠ '>') ∧
        (isPySpace c = true → c = ' ')) ∧
    (∀ s : String, List.Chain'
        (fun x y : Char => isPySpace x = false ∨ isPySpace y = false)
        (clean_markdown s).data) ∧
    (∀ (s : String) (c : Char), (clean_markdown s).data.head? = some c →
        isPySpace c = false) ∧
    (∀ (s : String) (c : Char), (clean_markdown s).data.getLast? = some c →
        isPySpace c = false) ∧
    clean_markdown "a [lab](url) b" = "a b" ∧
    clean_markdown "## |표| - *굵게* [링크](http://a) 끝" = "표 굵게 끝" ∧
    (∀ header body : List Char,
        mkFullText header body = String.mk
          ((clean_markdown_l header ++ '.' :: ' ' :: clean_markdown_l body).take
            MAX_TEXT_LENGTH) ∧
        (mkFullText header body).length ≤ MAX_TEXT_LENGTH) ∧
    (∀ (α : Type) (dim : Nat) (enc : Enc α) (doc : List Char),
        ∀ b ∈ (pipeStateOf dim enc doc).sent, ∀ t ∈ b,
          t.length ≤ MAX_TEXT_LENGTH) := by
  refine ⟨?_, ?_, ?_, ?_, rfl, rfl, fun header body => ⟨rfl, mkFullText_length_le header body⟩, ?_⟩
  · intro s c hc
    have hc2 := mem_pyStrip c _ hc
    rcases mem_collapseWsAux c _ false hc2 with rfl | ⟨hc3, hsp⟩
    · exact ⟨by decide, fun _ => rfl⟩
    · rcases mem_subMarkup c _ hc3 with rfl | ⟨hc4, hm1, hm2, hm3, hm4⟩
      · simp [isPySpace] at hsp
      · rcases mem_subPipeDash c _ hc4 with rfl | ⟨hc5, hp1, hp2⟩
        · simp [isPySpace] at hsp
        · exact ⟨⟨hp1, hp2, hm1, hm2, hm3, hm4⟩,
            fun hcon => absurd hcon (by simp [hsp])⟩
  · intro s
    exact chain'_pyStrip (fun x y h => h.symm) _ (chain'_collapseWsAux _ false)
  · intro s c h
    exact pyStrip_head_not _ c h
  · intro s c h
    exact pyStrip_last_not _ c h
  · intro α dim enc doc b hb t ht
    have hinv := foldl_step_preserve enc
      (fun st sec h => step_texts enc st sec h) (splitSections doc)
      { db := init_db emptyDB dim, buffer := [], batchTexts := [],
        batchMeta := [], calls := 0, sent := [] }
      ⟨fun b hb => absurd hb (List.not_mem_nil b),
       fun t ht => absurd ht (List.not_mem_nil t)⟩
    exact hinv.1 b hb t ht

/-- Claim C9 witness: the properties at concrete inputs — a character of a
cleaned string, its head and last characters, and a text actually sent to
the backend during a concrete run. -/
theorem claim_C9_witness :
    ((('a' ≠ '|' ∧ 'a' ≠ '-' ∧ 'a' ≠ '#' ∧ 'a' ≠ '*' ∧
        Char.toNat 'a' ≠ 96 ∧ 'a' ≠ '>') ∧
      (isPySpace 'a' = true → 'a' = ' ')) ∧
     isPySpace 'a' = false ∧ isPySpace 'b' = false) ∧
    ("[2024 13] 검사. 본문" : String).length ≤ MAX_TEXT_LENGTH :=
  ⟨⟨claim_C9.1 "a  b" 'a' (by decide),
    claim_C9.2.2.1 "a  b" 'a' (by decide),
    claim_C9.2.2.2.1 "a  b" 'b' (by decide)⟩,
   claim_C9.2.2.2.2.2.2.2 ℚ 2 encConst2 docMonth13
     ["[2024 13] 검사. 본문"] (by decide) _ (by decide)⟩

set_option maxRecDepth 100000 in
/-- Claim C10: tag extraction sees only the search window — the header plus
the first thousand characters of the body — so every extracted tag occurs
inside that window, and a keyword lying wholly beyond the first thousand
characters of the body (here 탄저병 after one thousand filler characters)
yields no tag. -/
theorem claim_C10 :
    (∀ (tags : List String) (header body : List Char) (kw : String),
        kw ∈ extractCategory tags (searchRange header body) →
        hasSubstr kw.data (searchRange header body) = true) ∧
    (extractTags (searchRange ("# [2024-01] 점검".data)
        (List.replicate 1000 'x' ++ "탄저병".data))).pest = [] := by
  constructor
  · intro tags header body kw hkw
    exact extractCategory_substr tags (searchRange header body) kw hkw
  · rfl

/-- Claim C10 witness: a keyword inside the window is extracted and indeed
occurs in the window. -/
theorem claim_C10_witness :
    hasSubstr ("탄" : String).data
      (searchRange ("# 머리글".data) ("탄저병 발생".data)) = true :=
  claim_C10.1 PEST_TAGS ("# 머리글".data) ("탄저병 발생".data) "탄" (by decide)

end TagFarm
